import Mathlib

/-!
Shallow embedding of the `bloombox` crate (`src/lib.rs`): a classic Bloom
filter.  The Rust struct `BloomBox` holds a bit vector (`Vec<bool>`), a list
of `u64` hash seeds, the declared `size`, and a running `insert_count`.

Modelling conventions:
* `Vec<bool>` becomes `List Bool`; `Vec<u64>` becomes `List Nat` (seeds are
  only ever fed opaquely to the hash function, never computed with).
* The item type `T : Hash` together with `XxHash::with_seed(seed)` /
  `finish()` is modelled by an abstract digest function `H : α → Nat → Nat`:
  `H item seed` stands for `hasher.finish() as usize` after hashing `item`
  with seed `seed`.  Every theorem is quantified over `H`, so the results
  hold for any deterministic seeded hash, XxHash included.
* Rust panics (`%` by zero in `hash_item`, out-of-bounds indexing of the
  bit vector) are modelled by `Option`: `none` is a panic.
-/

structure BloomBox where
  bit_vector : List Bool
  seeds : List Nat
  size : Nat
  insert_count : Nat
deriving DecidableEq

namespace BloomBox

variable {α : Type}

/-- Rust `BloomBox::new(size, seeds)`: all-false bit vector of length `size`. -/
def new (size : Nat) (seeds : List Nat) : BloomBox :=
  { bit_vector := List.replicate size false
    seeds := seeds
    size := size
    insert_count := 0 }

/-- Rust `BloomBox::hash_item`: `hasher.finish() as usize % self.size`.
Rust's `%` panics when `self.size == 0`, hence the `Option`. -/
def hash_item (F : BloomBox) (H : α → Nat → Nat) (item : α) (seed : Nat) :
    Option Nat :=
  if F.size = 0 then none else some (H item seed % F.size)

/-- Loop body of `BloomBox::insert` (`for &seed in &self.seeds`):
`self.bit_vector[hashed] = true` for each seed, threading the state.
Indexing panics (is `none`) when `hashed` is out of bounds. -/
def insertLoop (H : α → Nat → Nat) (item : α) : BloomBox → List Nat → Option BloomBox
  | F, [] => some F
  | F, seed :: rest => do
    let hashed ← F.hash_item H item seed
    if hashed < F.bit_vector.length then
      insertLoop H item { F with bit_vector := F.bit_vector.set hashed true } rest
    else
      none

/-- Rust `BloomBox::insert`: run the seed loop, then `self.insert_count += 1`. -/
def insert (F : BloomBox) (H : α → Nat → Nat) (item : α) : Option BloomBox := do
  let F' ← insertLoop H item F F.seeds
  some { F' with insert_count := F'.insert_count + 1 }

/-- Loop body of `BloomBox::contains` (`for &seed in &self.seeds`):
`if !self.bit_vector[hashed] { return false }`, else continue; `true`
after the loop. -/
def containsLoop (F : BloomBox) (H : α → Nat → Nat) (item : α) : List Nat → Option Bool
  | [] => some true
  | seed :: rest => do
    let hashed ← F.hash_item H item seed
    let b ← F.bit_vector.get? hashed
    if b then F.containsLoop H item rest else some false

/-- Rust `BloomBox::contains`. -/
def contains (F : BloomBox) (H : α → Nat → Nat) (item : α) : Option Bool :=
  F.containsLoop H item F.seeds

/-- Rust `BloomBox::get_insert_count`. -/
def get_insert_count (F : BloomBox) : Nat := F.insert_count

/-- Rust `BloomBox::get_size`. -/
def get_size (F : BloomBox) : Nat := F.size

/-- Rust `BloomBox::get_seeds`. -/
def get_seeds (F : BloomBox) : List Nat := F.seeds

/-- Rust `BloomBox::get_num_seeds`. -/
def get_num_seeds (F : BloomBox) : Nat := F.seeds.length

/-- A sequence of `insert` calls, in order. -/
def runInserts (F : BloomBox) (H : α → Nat → Nat) : List α → Option BloomBox
  | [] => some F
  | x :: xs => do
    let F' ← F.insert H x
    F'.runInserts H xs

/-- Well-formedness of a filter state: positive size and the documented
invariant `size == bits.length`.  Both constructors establish it (for
`new` whenever `size > 0`). -/
abbrev WF (F : BloomBox) : Prop := 0 < F.size ∧ F.size = F.bit_vector.length

end BloomBox

/-!
Serialization model for `#[derive(Serialize, Deserialize)]` on `BloomBox`
(used in the crate through `serde_json`): the struct serializes to a JSON
object with the four fields in declaration order, booleans and numbers
encoding the field values; deserialization decodes the four fields and
fails (`none`, serde's `Err`) on any malformed input.
-/

inductive Json where
  | bool (b : Bool)
  | num (n : Nat)
  | arr (elems : List Json)
  | obj (fields : List (String × Json))

/-- Element-wise decoder for a JSON array of booleans (`Vec<bool>`). -/
def decodeBools : List Json → Option (List Bool)
  | [] => some []
  | Json.bool b :: rest => do
    let bs ← decodeBools rest
    some (b :: bs)
  | _ => none

/-- Element-wise decoder for a JSON array of numbers (`Vec<u64>`). -/
def decodeNats : List Json → Option (List Nat)
  | [] => some []
  | Json.num n :: rest => do
    let ns ← decodeNats rest
    some (n :: ns)
  | _ => none

/-- Serde serialization of `BloomBox`: one object, four named fields in
declaration order. -/
def serializeBloomBox (F : BloomBox) : Json :=
  Json.obj
    [("bit_vector", Json.arr (F.bit_vector.map Json.bool)),
     ("seeds", Json.arr (F.seeds.map Json.num)),
     ("size", Json.num F.size),
     ("insert_count", Json.num F.insert_count)]

/-- Serde deserialization of `BloomBox`: expects the four fields of the
serialized layout and rebuilds the struct; any other shape is a decode
error (`none`). -/
def deserializeBloomBox : Json → Option BloomBox
  | Json.obj [("bit_vector", Json.arr bvE), ("seeds", Json.arr sdE),
      ("size", Json.num sz), ("insert_count", Json.num ic)] => do
    let bv ← decodeBools bvE
    let sds ← decodeNats sdE
    some { bit_vector := bv, seeds := sds, size := sz, insert_count := ic }
  | _ => none

/-! Helper lemmas about `List Bool` bit vectors. -/

lemma getD_lt_length {bv : List Bool} {j : Nat} (h : bv.getD j false = true) :
    j < bv.length := by
  by_contra hj
  rw [List.getD_eq_getElem?_getD, List.getElem?_eq_none (Nat.le_of_not_lt hj)] at h
  simp at h

lemma getD_set_self (bv : List Bool) (i : Nat) (h : i < bv.length) :
    (bv.set i true).getD i false = true := by
  rw [List.getD_eq_getElem?_getD, List.getElem?_set_self h]
  rfl

lemma getD_set_mono (bv : List Bool) (i : Nat) {j : Nat}
    (h : bv.getD j false = true) : (bv.set i true).getD j false = true := by
  rcases eq_or_ne i j with rfl | hne
  · exact getD_set_self bv i (getD_lt_length h)
  · rw [List.getD_eq_getElem?_getD, List.getElem?_set_ne hne,
        ← List.getD_eq_getElem?_getD]
    exact h

lemma set_eq_self_of_getD : ∀ (bv : List Bool) (i : Nat),
    bv.getD i false = true → bv.set i true = bv
  | [], _, _ => rfl
  | b :: bs, 0, h => by
    simp only [List.getD_cons_zero] at h
    simp [h]
  | b :: bs, i + 1, h => by
    simp only [List.getD_cons_succ] at h
    simp [set_eq_self_of_getD bs i h]

lemma get?_eq_some_getD {bv : List Bool} {i : Nat} (h : i < bv.length) :
    bv.get? i = some (bv.getD i false) := by
  rw [List.get?_eq_getElem?, List.getD_eq_getElem?_getD, List.getElem?_eq_getElem h]
  rfl

lemma getD_replicate_false (n i : Nat) :
    (List.replicate n false).getD i false = false := by
  rw [List.getD_eq_getElem?_getD, List.getElem?_replicate]
  split <;> rfl

/-! Behavioural lemmas for the filter operations. -/

namespace BloomBox

variable {α : Type}

lemma insertLoop_eq_some {H : α → Nat → Nat} {x : α} :
    ∀ (sds : List Nat) (F F' : BloomBox),
      insertLoop H x F sds = some F' →
      F'.size = F.size ∧ F'.seeds = F.seeds ∧
      F'.insert_count = F.insert_count ∧
      F'.bit_vector.length = F.bit_vector.length ∧
      (∀ i, F.bit_vector.getD i false = true → F'.bit_vector.getD i false = true) ∧
      (∀ s ∈ sds, F'.bit_vector.getD (H x s % F.size) false = true)
  | [], F, F', h => by
    obtain rfl : F = F' := by simpa [insertLoop] using h
    exact ⟨rfl, rfl, rfl, rfl, fun _ hi => hi, by simp⟩
  | seed :: rest, F, F', h => by
    by_cases hsz : F.size = 0
    · simp [insertLoop, hash_item, hsz] at h
    · simp only [insertLoop, hash_item, if_neg hsz, Option.bind_eq_bind,
        Option.some_bind] at h
      by_cases hlt : H x seed % F.size < F.bit_vector.length
      · rw [if_pos hlt] at h
        obtain ⟨h1, h2, h3, h4, h5, h6⟩ := insertLoop_eq_some rest _ F' h
        refine ⟨h1, h2, h3, h4.trans (List.length_set ..), fun i hi => h5 i (getD_set_mono _ _ hi), ?_⟩
        intro s hs
        rcases List.mem_cons.mp hs with rfl | hs'
        · exact h5 _ (getD_set_self _ _ hlt)
        · exact h6 s hs'
      · rw [if_neg hlt] at h
        cases h

lemma insertLoop_wf_some {H : α → Nat → Nat} {x : α} :
    ∀ (sds : List Nat) (F : BloomBox), F.WF →
      ∃ F', insertLoop H x F sds = some F'
  | [], F, _ => ⟨F, rfl⟩
  | seed :: rest, F, hWF => by
    have hsz : F.size ≠ 0 := Nat.pos_iff_ne_zero.mp hWF.1
    have hlt : H x seed % F.size < F.bit_vector.length := by
      rw [← hWF.2]; exact Nat.mod_lt _ hWF.1
    have hWF1 : ({ F with bit_vector := F.bit_vector.set (H x seed % F.size) true } : BloomBox).WF :=
      ⟨hWF.1, by simpa using hWF.2⟩
    obtain ⟨F', hF'⟩ := insertLoop_wf_some (H := H) (x := x) rest _ hWF1
    exact ⟨F', by
      simp only [insertLoop, hash_item, if_neg hsz, Option.bind_eq_bind,
        Option.some_bind, if_pos hlt]
      exact hF'⟩

lemma insert_eq_some {H : α → Nat → Nat} {x : α} {F F' : BloomBox}
    (h : F.insert H x = some F') :
    F'.size = F.size ∧ F'.seeds = F.seeds ∧
    F'.insert_count = F.insert_count + 1 ∧
    F'.bit_vector.length = F.bit_vector.length ∧
    (∀ i, F.bit_vector.getD i false = true → F'.bit_vector.getD i false = true) ∧
    (∀ s ∈ F.seeds, F'.bit_vector.getD (H x s % F.size) false = true) := by
  cases hL : insertLoop H x F F.seeds with
  | none => simp [insert, hL] at h
  | some F0 =>
    have h' : ({ F0 with insert_count := F0.insert_count + 1 } : BloomBox) = F' := by
      simpa [insert, hL] using h
    obtain ⟨h1, h2, h3, h4, h5, h6⟩ := insertLoop_eq_some F.seeds F F0 hL
    subst h'
    exact ⟨h1, h2, by simp [h3], h4, h5, h6⟩

lemma insert_wf_some {H : α → Nat → Nat} {x : α} {F : BloomBox} (hWF : F.WF) :
    ∃ F', F.insert H x = some F' := by
  obtain ⟨F0, h0⟩ := insertLoop_wf_some (H := H) (x := x) F.seeds F hWF
  exact ⟨{ F0 with insert_count := F0.insert_count + 1 }, by
    simp only [insert, h0, Option.bind_eq_bind, Option.some_bind]⟩

lemma insert_wf {H : α → Nat → Nat} {x : α} {F F' : BloomBox}
    (h : F.insert H x = some F') (hWF : F.WF) : F'.WF := by
  obtain ⟨h1, _, _, h4, _, _⟩ := insert_eq_some h
  exact ⟨h1 ▸ hWF.1, by rw [h1, h4]; exact hWF.2⟩

lemma runInserts_eq_some {H : α → Nat → Nat} :
    ∀ (L : List α) (F F' : BloomBox), F.runInserts H L = some F' →
      F'.size = F.size ∧ F'.seeds = F.seeds ∧
      F'.insert_count = F.insert_count + L.length ∧
      F'.bit_vector.length = F.bit_vector.length ∧
      (∀ i, F.bit_vector.getD i false = true → F'.bit_vector.getD i false = true) ∧
      (∀ y ∈ L, ∀ s ∈ F.seeds, F'.bit_vector.getD (H y s % F.size) false = true)
  | [], F, F', h => by
    obtain rfl : F = F' := by simpa [runInserts] using h
    exact ⟨rfl, rfl, rfl, rfl, fun _ hi => hi, by simp⟩
  | y :: ys, F, F', h => by
    cases hI : F.insert H y with
    | none => simp [runInserts, hI] at h
    | some F1 =>
      have hrest : F1.runInserts H ys = some F' := by simpa [runInserts, hI] using h
      obtain ⟨i1, i2, i3, i4, i5, i6⟩ := insert_eq_some hI
      obtain ⟨r1, r2, r3, r4, r5, r6⟩ := runInserts_eq_some ys F1 F' hrest
      refine ⟨r1.trans i1, r2.trans i2, ?_, r4.trans i4,
        fun i hi => r5 i (i5 i hi), ?_⟩
      · rw [r3, i3]; simp [List.length_cons]; omega
      · intro z hz s hs
        rcases List.mem_cons.mp hz with rfl | hz'
        · exact r5 _ (i6 s hs)
        · have hzz := r6 z hz' s (by rw [i2]; exact hs)
          rwa [i1] at hzz

lemma runInserts_wf_some {H : α → Nat → Nat} :
    ∀ (L : List α) (F : BloomBox), F.WF → ∃ F', F.runInserts H L = some F'
  | [], F, _ => ⟨F, rfl⟩
  | y :: ys, F, hWF => by
    obtain ⟨F1, h1⟩ := insert_wf_some (H := H) (x := y) hWF
    obtain ⟨F', h'⟩ := runInserts_wf_some (H := H) ys F1 (insert_wf h1 hWF)
    exact ⟨F', by
      simp only [runInserts, h1, Option.bind_eq_bind, Option.some_bind]
      exact h'⟩

lemma containsLoop_cons {H : α → Nat → Nat} {x : α} {F : BloomBox} (hWF : F.WF)
    (seed : Nat) (rest : List Nat) :
    F.containsLoop H x (seed :: rest) =
      if F.bit_vector.getD (H x seed % F.size) false = true
      then F.containsLoop H x rest else some false := by
  have hsz : F.size ≠ 0 := Nat.pos_iff_ne_zero.mp hWF.1
  have hlt : H x seed % F.size < F.bit_vector.length := by
    rw [← hWF.2]; exact Nat.mod_lt _ hWF.1
  simp only [containsLoop, hash_item, if_neg hsz, Option.bind_eq_bind,
    Option.some_bind, get?_eq_some_getD hlt]

lemma containsLoop_eq_all {H : α → Nat → Nat} {x : α} {F : BloomBox} (hWF : F.WF) :
    ∀ sds : List Nat, F.containsLoop H x sds =
      some (sds.all fun s => F.bit_vector.getD (H x s % F.size) false)
  | [] => by simp [containsLoop]
  | seed :: rest => by
    rw [containsLoop_cons hWF]
    simp only [List.all_cons]
    cases hb : F.bit_vector.getD (H x seed % F.size) false with
    | false => simp
    | true =>
      rw [if_pos rfl, containsLoop_eq_all hWF rest]
      simp

lemma contains_eq_all {H : α → Nat → Nat} {x : α} {F : BloomBox} (hWF : F.WF) :
    F.contains H x =
      some (F.seeds.all fun s => F.bit_vector.getD (H x s % F.size) false) :=
  containsLoop_eq_all hWF F.seeds

end BloomBox

namespace BloomBox

variable {α : Type}

lemma insertLoop_of_bits_set {H : α → Nat → Nat} {x : α} :
    ∀ (sds : List Nat) (F : BloomBox), F.WF →
      (∀ s ∈ sds, F.bit_vector.getD (H x s % F.size) false = true) →
      insertLoop H x F sds = some F
  | [], _, _, _ => rfl
  | seed :: rest, F, hWF, hbits => by
    have hsz : F.size ≠ 0 := Nat.pos_iff_ne_zero.mp hWF.1
    have hlt : H x seed % F.size < F.bit_vector.length := by
      rw [← hWF.2]; exact Nat.mod_lt _ hWF.1
    have hset : F.bit_vector.set (H x seed % F.size) true = F.bit_vector :=
      set_eq_self_of_getD _ _ (hbits seed (List.mem_cons_self _ _))
    simp only [insertLoop, hash_item, if_neg hsz, Option.bind_eq_bind,
      Option.some_bind, if_pos hlt, hset]
    exact insertLoop_of_bits_set rest F hWF fun s hs =>
      hbits s (List.mem_cons_of_mem _ hs)

end BloomBox

/-! Serialization round-trip lemmas. -/

lemma decodeBools_map : ∀ l : List Bool, decodeBools (l.map Json.bool) = some l
  | [] => rfl
  | b :: bs => by simp [decodeBools, decodeBools_map bs]

lemma decodeNats_map : ∀ l : List Nat, decodeNats (l.map Json.num) = some l
  | [] => rfl
  | n :: ns => by simp [decodeNats, decodeNats_map ns]

lemma deserialize_serialize (F : BloomBox) :
    deserializeBloomBox (serializeBloomBox F) = some F := by
  simp [serializeBloomBox, deserializeBloomBox, decodeBools_map, decodeNats_map]

/-! Claim theorems. -/

/-- C1: no false negatives.  For a filter built by `new` with a non-empty
seed list and positive size, after any successful sequence of `insert`
calls whose items include `x` — no matter how many and which other items
were inserted before or after `x` — `contains` answers `true` for `x`. -/
theorem no_false_negatives {α : Type} (H : α → Nat → Nat) (m : Nat)
    (sds : List Nat) (hm : 0 < m) (_hsds : sds ≠ []) (L : List α)
    (F' : BloomBox) (hrun : (BloomBox.new m sds).runInserts H L = some F')
    (x : α) (hx : x ∈ L) : F'.contains H x = some true := by
  have hWF0 : (BloomBox.new m sds).WF := ⟨hm, by simp [BloomBox.new]⟩
  obtain ⟨r1, r2, _, r4, _, r6⟩ := BloomBox.runInserts_eq_some L _ F' hrun
  have hWF' : F'.WF := ⟨r1 ▸ hWF0.1, by rw [r1, r4]; exact hWF0.2⟩
  rw [BloomBox.contains_eq_all hWF']
  congr 1
  simp only [List.all_eq_true]
  intro s hs
  have h6 := r6 x hx s (by rw [← r2]; exact hs)
  rw [r1]
  exact h6

/-- Witness for C1: filter `new 3 [0, 1]`, digest `a + s`, inserts `[5, 7]`. -/
theorem no_false_negatives_witness :
    (⟨[true, true, true], [0, 1], 3, 2⟩ : BloomBox).contains
      (fun a s : Nat => a + s) 5 = some true :=
  no_false_negatives (fun a s => a + s) 3 [0, 1] (by decide) (by decide)
    [5, 7] _ (by decide) 5 (by decide)

/-- C4: the membership test computes for each seed, in order,
`index = hash(item, seed) mod size`; it answers `true` iff the bits at all
computed indices are `true`, and on the first seed whose bit is `false` the
loop answers `false` without consulting the remaining seeds (the loop
equation in the third conjunct). -/
theorem contains_algorithm {α : Type} (H : α → Nat → Nat) (F : BloomBox)
    (x : α) (hsz : 0 < F.size) (hlen : F.size = F.bit_vector.length) :
    F.contains H x =
      some (F.seeds.all fun s => F.bit_vector.getD (H x s % F.size) false) ∧
    (F.contains H x = some true ↔
      ∀ s ∈ F.seeds, F.bit_vector.getD (H x s % F.size) false = true) ∧
    (∀ seed rest, F.containsLoop H x (seed :: rest) =
      if F.bit_vector.getD (H x seed % F.size) false = true
      then F.containsLoop H x rest else some false) := by
  have hWF : F.WF := ⟨hsz, hlen⟩
  refine ⟨BloomBox.contains_eq_all hWF, ?_,
    fun seed rest => BloomBox.containsLoop_cons hWF seed rest⟩
  rw [BloomBox.contains_eq_all hWF]
  simp only [Option.some.injEq, List.all_eq_true]

/-- Witness for C4 at the filter `⟨[true, false, true], [0, 1], 3, 1⟩`. -/
theorem contains_algorithm_witness :
    (⟨[true, false, true], [0, 1], 3, 1⟩ : BloomBox).contains
        (fun a s : Nat => a + s) 5 = some true ↔
      ∀ s ∈ ([0, 1] : List Nat),
        ([true, false, true] : List Bool).getD ((5 + s) % 3) false = true :=
  (contains_algorithm (fun a s => a + s) ⟨[true, false, true], [0, 1], 3, 1⟩ 5
    (by decide) (by decide)).2.1

/-- C5: starting from a fresh filter, after `j` `insert` calls (duplicates
included) `get_insert_count` returns `j`, and each single `insert`
increments `insert_count` by exactly 1 whether or not any bit changed. -/
theorem insert_count_exact {α : Type} (H : α → Nat → Nat) (m : Nat)
    (sds : List Nat) (L : List α) (F' : BloomBox)
    (hrun : (BloomBox.new m sds).runInserts H L = some F')
    (F G : BloomBox) (y : α) (hins : F.insert H y = some G) :
    F'.get_insert_count = L.length ∧ G.insert_count = F.insert_count + 1 := by
  obtain ⟨_, _, r3, _, _, _⟩ := BloomBox.runInserts_eq_some L _ F' hrun
  obtain ⟨_, _, i3, _, _, _⟩ := BloomBox.insert_eq_some hins
  refine ⟨?_, i3⟩
  show F'.insert_count = L.length
  rw [r3]
  simp [BloomBox.new]

/-- Witness for C5: inserting the duplicate list `[5, 5]` gives count 2. -/
theorem insert_count_exact_witness :
    (⟨[true, false, true], [0, 1], 3, 2⟩ : BloomBox).get_insert_count = 2 ∧
    (⟨[true, false, true], [0, 1], 3, 1⟩ : BloomBox).insert_count =
      (BloomBox.new 3 [0, 1]).insert_count + 1 :=
  insert_count_exact (fun a s : Nat => a + s) 3 [0, 1] [5, 5] _ (by decide)
    (BloomBox.new 3 [0, 1]) _ 5 (by decide)

/-- C6: state invariants.  `new` establishes `size = bits.length` with an
all-false bit vector; any successful sequence of `insert` calls preserves
the seed list, the size, the bit-vector length (hence the invariant), and
only ever turns bits from `false` to `true`, never back.  `contains` and
the accessors are pure functions of the state and mutate nothing. -/
theorem state_invariants {α : Type} (H : α → Nat → Nat) (m : Nat)
    (sds : List Nat) (L : List α) (F F' : BloomBox)
    (hrun : F.runInserts H L = some F') :
    (BloomBox.new m sds).size = (BloomBox.new m sds).bit_vector.length ∧
    (∀ b ∈ (BloomBox.new m sds).bit_vector, b = false) ∧
    F'.seeds = F.seeds ∧ F'.size = F.size ∧
    F'.bit_vector.length = F.bit_vector.length ∧
    (F.size = F.bit_vector.length → F'.size = F'.bit_vector.length) ∧
    (∀ i, F.bit_vector.getD i false = true → F'.bit_vector.getD i false = true) := by
  obtain ⟨r1, r2, _, r4, r5, _⟩ := BloomBox.runInserts_eq_some L F F' hrun
  refine ⟨by simp [BloomBox.new],
    fun b hb => List.eq_of_mem_replicate (by simpa [BloomBox.new] using hb),
    r2, r1, r4, ?_, r5⟩
  intro hinv
  rw [r1, r4]
  exact hinv

/-- Witness for C6 after inserting `[5]` into `new 3 [0, 1]`. -/
theorem state_invariants_witness :
    (⟨[true, false, true], [0, 1], 3, 1⟩ : BloomBox).seeds =
      (BloomBox.new 3 [0, 1]).seeds :=
  (state_invariants (fun a s : Nat => a + s) 2 [9] [5] (BloomBox.new 3 [0, 1])
    _ (by decide)).2.2.1

/-- C8: totality of `insert` and `contains` on a validly constructed
filter (`size > 0`, `size = bits.length`): both operations succeed (no
panic is reachable), and for every seed `hash_item` yields
`hash(item, seed) mod size`, which is strictly below the bit-vector
length, so the modulo is well-defined and the access in bounds. -/
theorem insert_contains_total {α : Type} (H : α → Nat → Nat) (F : BloomBox)
    (x : α) (hsz : 0 < F.size) (hlen : F.size = F.bit_vector.length) :
    (∃ F', F.insert H x = some F') ∧
    (∃ b, F.contains H x = some b) ∧
    (∀ seed, F.hash_item H x seed = some (H x seed % F.size) ∧
      H x seed % F.size < F.bit_vector.length) := by
  have hWF : F.WF := ⟨hsz, hlen⟩
  have hne : F.size ≠ 0 := Nat.pos_iff_ne_zero.mp hsz
  refine ⟨BloomBox.insert_wf_some hWF, ⟨_, BloomBox.contains_eq_all hWF⟩,
    fun seed => ⟨by simp [BloomBox.hash_item, hne], ?_⟩⟩
  rw [← hlen]
  exact Nat.mod_lt _ hsz

/-- Witness for C8 at `new 3 [0, 1]`, digest `a + s`, item 5. -/
theorem insert_contains_total_witness :
    (∃ F', (BloomBox.new 3 [0, 1]).insert (fun a s : Nat => a + s) 5 = some F') ∧
    (∃ b, (BloomBox.new 3 [0, 1]).contains (fun a s : Nat => a + s) 5 = some b) ∧
    (∀ seed, (BloomBox.new 3 [0, 1]).hash_item (fun a s : Nat => a + s) 5 seed =
        some ((5 + seed) % 3) ∧
      (5 + seed) % 3 < (BloomBox.new 3 [0, 1]).bit_vector.length) :=
  insert_contains_total (fun a s => a + s) (BloomBox.new 3 [0, 1]) 5
    (by decide) (by decide)

/-- C10: inserting the same item twice leaves the bit vector exactly as
after one insert; only `insert_count` advances by 1 on the second call. -/
theorem insert_idempotent_bits {α : Type} (H : α → Nat → Nat) (F : BloomBox)
    (x : α) (hsz : 0 < F.size) (hlen : F.size = F.bit_vector.length)
    (F1 : BloomBox) (h1 : F.insert H x = some F1) :
    ∃ F2, F1.insert H x = some F2 ∧ F2.bit_vector = F1.bit_vector ∧
      F2.insert_count = F1.insert_count + 1 := by
  have hWF : F.WF := ⟨hsz, hlen⟩
  obtain ⟨i1, i2, _, _, _, i6⟩ := BloomBox.insert_eq_some h1
  have hWF1 : F1.WF := BloomBox.insert_wf h1 hWF
  have hbits : ∀ s ∈ F1.seeds, F1.bit_vector.getD (H x s % F1.size) false = true := by
    intro s hs
    rw [i1]
    exact i6 s (by rw [← i2]; exact hs)
  have hloop := BloomBox.insertLoop_of_bits_set F1.seeds F1 hWF1 hbits
  refine ⟨{ F1 with insert_count := F1.insert_count + 1 }, ?_, rfl, rfl⟩
  simp only [BloomBox.insert, hloop, Option.bind_eq_bind, Option.some_bind]

/-- Witness for C10: second insert of 5 into `new 3 [0, 1]`. -/
theorem insert_idempotent_bits_witness :
    ∃ F2, (⟨[true, false, true], [0, 1], 3, 1⟩ : BloomBox).insert
        (fun a s : Nat => a + s) 5 = some F2 ∧
      F2.bit_vector = [true, false, true] ∧ F2.insert_count = 1 + 1 :=
  insert_idempotent_bits (fun a s => a + s) (BloomBox.new 3 [0, 1]) 5
    (by decide) (by decide) _ (by decide)

/-- C7 counterexample: `new 1 []` is a freshly constructed filter with no
inserts (`insert_count = 0`), yet `contains` answers `some true`, not
`false` — with an empty seed list the seed loop is vacuous, so the claim
as stated (over every freshly constructed filter) fails on the code. -/
theorem empty_filter_counterexample :
    (BloomBox.new 1 []).insert_count = 0 ∧
    (BloomBox.new 1 []).contains (fun a s : Nat => a + s) 0 = some true ∧
    (BloomBox.new 1 []).contains (fun a s : Nat => a + s) 0 ≠ some false :=
  ⟨rfl, rfl, by decide⟩

/-- C7 amended: a freshly constructed filter with positive size and a
non-empty seed list, on which `insert` was never called, answers
`contains(x) = false` for every item `x`, because all bits start false. -/
theorem empty_filter_contains_false {α : Type} (H : α → Nat → Nat) (x : α)
    (m : Nat) (sds : List Nat) (hm : 0 < m) (hsds : sds ≠ []) :
    (BloomBox.new m sds).contains H x = some false := by
  have hWF : (BloomBox.new m sds).WF := ⟨hm, by simp [BloomBox.new]⟩
  rw [BloomBox.contains_eq_all hWF]
  congr 1
  obtain ⟨s, rest, rfl⟩ := List.exists_cons_of_ne_nil hsds
  simp [List.all_cons, BloomBox.new, getD_replicate_false]

/-- Witness for the amended C7 at `new 2 [0]`. -/
theorem empty_filter_contains_false_witness :
    (BloomBox.new 2 [0]).contains (fun a s : Nat => a + s) 5 = some false :=
  empty_filter_contains_false (fun a s => a + s) 5 2 [0] (by decide) (by decide)

/-- C3: serialization round-trip.  Deserializing the serialized form of
any filter state succeeds and returns a filter with the same size, seeds
(in order), insert count, and bit vector — hence the same `contains`
answer for every hash function and every item. -/
theorem serialization_round_trip (F G : BloomBox)
    (h : deserializeBloomBox (serializeBloomBox F) = some G) :
    deserializeBloomBox (serializeBloomBox F) = some F ∧
    G.size = F.size ∧ G.seeds = F.seeds ∧ G.insert_count = F.insert_count ∧
    G.bit_vector = F.bit_vector ∧
    ∀ (β : Type) (H : β → Nat → Nat) (x : β), G.contains H x = F.contains H x := by
  have hF := deserialize_serialize F
  rw [hF] at h
  obtain rfl : G = F := (Option.some.inj h).symm
  exact ⟨hF, rfl, rfl, rfl, rfl, fun _ _ _ => rfl⟩

/-- Witness for C3 at a concrete two-bit filter state. -/
theorem serialization_round_trip_witness :
    deserializeBloomBox (serializeBloomBox ⟨[true, false], [1, 2], 2, 1⟩) =
      some (⟨[true, false], [1, 2], 2, 1⟩ : BloomBox) :=
  (serialization_round_trip ⟨[true, false], [1, 2], 2, 1⟩
    ⟨[true, false], [1, 2], 2, 1⟩ (by decide)).1
